import Mathlib

/-!
Verification development for the webpack-cli configuration resolution engine
(`packages/webpack-cli/src/webpack-cli.ts`).

The TypeScript source is shallowly embedded: JavaScript values appearing in the
claims are modelled by small inductive types, in-place object mutation becomes
functional update, `process.exit(2)` paths become `Except` errors, and the
`WeakMap` path ledger (keyed by object identity) becomes an association list
keyed by a synthetic object identifier, following the arena+index idea of the
spec's design notes.
-/

namespace Webpack

/-! ## JavaScript-like values for the `--env` accumulator -/

/-- A JavaScript value as manipulated by the `--env` option's `type` function:
strings, booleans, `undefined`, and plain objects (ordered field lists). -/
inductive EVal where
  | str (s : String)
  | bool (b : Bool)
  | undef
  | obj (fields : List (String × EVal))
  deriving Repr

/-- First field with the given key, if any (JS property read). -/
def getField : List (String × EVal) → String → Option EVal
  | [], _ => none
  | (k, v) :: rest, key => if k = key then some v else getField rest key

/-- JS property write: overwrite in place when the key exists (order kept),
otherwise append. -/
def setField : List (String × EVal) → String → EVal → List (String × EVal)
  | [], key, v => [(key, v)]
  | (k, w) :: rest, key, v =>
    if k = key then (k, v) :: rest else (k, w) :: setField rest key v

/-- JS truthiness of `prevRef[someKey]`: `undefined`, `false` and `""` are
falsy; objects and non-empty strings are truthy. -/
def truthyE : EVal → Bool
  | .str s => s ≠ ""
  | .bool b => b
  | .undef => false
  | .obj _ => true

/-- Truthiness of a possibly-missing property. -/
def truthyOpt : Option EVal → Bool
  | none => false
  | some v => truthyE v

/-- `typeof prevRef[someKey] === "string"`. -/
def isStringOpt : Option EVal → Bool
  | some (.str _) => true
  | _ => false

/-- Property read through an `EVal`. A read on a non-object yields nothing. -/
def objGet : EVal → String → Option EVal
  | .obj fs, k => getField fs k
  | _, _ => none

/-- Property write through an `EVal`. Writing a property on a primitive is
modelled as a no-op; none of the executions considered below reach that case. -/
def objSet : EVal → String → EVal → EVal
  | .obj fs, k, v => .obj (setField fs k v)
  | other, _, _ => other

/-! ## String helpers from the source -/

/-- Helper for `splitFirstEq`: scan for the first `=` that is followed by at
least one character (the regex `[=](.+)` needs a non-empty capture). -/
def splitEqAux : List Char → List Char → String × Option String
  | acc, [] => (⟨acc.reverse⟩, none)
  | acc, c :: rest =>
    if c = '=' ∧ rest ≠ [] then (⟨acc.reverse⟩, some ⟨rest⟩)
    else splitEqAux (c :: acc) rest

/-- Models `value.split(/[=](.+)/, 2)`: split at the first `=` that has value
text after it; a trailing `=` with nothing after it does not split
(`"foo="` stays whole and the second component is `undefined`). -/
def splitFirstEq (value : String) : String × Option String :=
  splitEqAux [] value.toList

/-- Helper for `splitDots`: split on every `.` that is not the final
character (the regex `\.(?!$)`). -/
def splitDotsAux : List Char → List Char → List String
  | acc, [] => [⟨acc.reverse⟩]
  | acc, c :: rest =>
    if c = '.' ∧ rest ≠ [] then (⟨acc.reverse⟩ : String) :: splitDotsAux [] rest
    else splitDotsAux (c :: acc) rest

/-- Models `allKeys.split(/\.(?!$)/)`. -/
def splitDots (allKeys : String) : List String :=
  splitDotsAux [] allKeys.toList

/-- Models `str.replaceAll(/([a-z0-9])([A-Z])/g, "$1-$2").toLowerCase()`.
Because `$1` is a lower-case letter or digit and `$2` is upper case, no
character can serve both roles, so a character-pair scan is exact. -/
def toKebabCase (str : String) : String :=
  ⟨(toKebabCaseGo str.toList).map Char.toLower⟩
where
  toKebabCaseGo : List Char → List Char
    | c1 :: c2 :: rest =>
      if (c1.isLower ∨ c1.isDigit) ∧ c2.isUpper then c1 :: '-' :: toKebabCaseGo (c2 :: rest)
      else c1 :: toKebabCaseGo (c2 :: rest)
    | l => l

/-! ## The `--env` option's `type` function (webpack-cli.ts lines 930–967) -/

/-- `someKey.endsWith "="`, specialised to the one-character suffix: the last
character is `=`. -/
def endsWithEq (s : String) : Bool :=
  match s.toList.getLast? with
  | some '=' => true
  | _ => false

/-- The `for (let [index, someKey] of splitKeys.entries())` loop body.
`cur` is the object `prevRef` currently points at; descending into
`prevRef[someKey]` becomes a recursive call whose result is written back. -/
def envApplyKeys : List String → Option String → EVal → EVal
  | [], _, cur => cur
  | someKey :: rest, val, cur =>
    if endsWithEq someKey then
      -- `someKey.slice(0, -1)`: remove '=' from key, set it to undefined, `continue`
      envApplyKeys rest val (objSet cur (⟨someKey.toList.dropLast⟩ : String) .undef)
    else
      let cur1 := if ! truthyOpt (objGet cur someKey) then objSet cur someKey (.obj []) else cur
      let cur2 :=
        if isStringOpt (objGet cur1 someKey) then objSet cur1 someKey (.obj []) else cur1
      match rest with
      | [] =>
        -- `index === splitKeys.length - 1`: bind the final segment
        objSet cur2 someKey (match val with | some s => .str s | none => .bool true)
      | _ :: _ =>
        let inner := (objGet cur2 someKey).getD .undef
        objSet cur2 someKey (envApplyKeys rest val inner)

/-- The `type` function of the built-in `env` option: splits `value` at the
first `=` carrying value text, splits the key part on interior dots, and
threads the assignment through the accumulated `previous` object. -/
def envOptionType (value : String) (previous : EVal) : EVal :=
  let (allKeys, val) := splitFirstEq value
  envApplyKeys (splitDots allKeys) val previous

/-! ## Option schema compiler: `makeOption` (webpack-cli.ts lines 650–869) -/

/-- The constructor functions `Boolean`, `Number`, `String` that `makeOption`
collects into `mainOptionType`. -/
inductive OptType where
  | tBool
  | tNum
  | tStr
  deriving Repr, DecidableEq

/-- JS `Set.add`: insertion-ordered, a duplicate is ignored. `makeOption` only
consumes membership (`has`) and cardinality (`size`). -/
def addType (s : List OptType) (t : OptType) : List OptType :=
  if t ∈ s then s else s ++ [t]

/-- A member of an enum config's `values` array. -/
inductive EnumMember where
  | eStr (s : String)
  | eNum (n : Int)
  | eBool (b : Bool)
  deriving Repr, DecidableEq

/-- The `type` discriminant of one entry of `option.configs`. -/
inductive ConfigKind where
  | reset
  | boolean
  | stringK
  | number
  | pathK
  | regExp
  | enum
  deriving Repr, DecidableEq

/-- One entry of `option.configs`. -/
structure FlagConfig where
  kind : ConfigKind
  values : List EnumMember := []
  negatedDescription : Option String := none
  deriving Repr, DecidableEq

/-- Mutable state of the `for (const config of option.configs)` loop. -/
structure InferState where
  needNegativeOption : Bool
  negatedDescription : Option String
  mainOptionType : List OptType
  deriving Repr

/-- One iteration of the inner loop over an enum config's `values`: the
accumulator pairs `mainOptionType` with the local `hasFalseEnum` flag. -/
def enumValuesStep (acc : List OptType × Bool) (value : EnumMember) :
    List OptType × Bool :=
  match value with
  | .eStr _ => (addType acc.1 .tStr, acc.2)
  | .eNum _ => (addType acc.1 .tNum, acc.2)
  | .eBool b =>
    if ! acc.2 ∧ b = false then (acc.1, true)
    else (addType acc.1 .tBool, acc.2)

/-- One iteration of the config loop (the `switch (config.type)`). -/
def inferConfigsStep (st : InferState) (config : FlagConfig) : InferState :=
  match config.kind with
  | .reset => { st with mainOptionType := addType st.mainOptionType .tBool }
  | .boolean =>
    let st :=
      if ! st.needNegativeOption then
        { st with needNegativeOption := true, negatedDescription := config.negatedDescription }
      else st
    { st with mainOptionType := addType st.mainOptionType .tBool }
  | .number => { st with mainOptionType := addType st.mainOptionType .tNum }
  | .stringK | .pathK | .regExp =>
    { st with mainOptionType := addType st.mainOptionType .tStr }
  | .enum =>
    -- inner loop over `config.values` with the local `hasFalseEnum` flag;
    -- a literal `false` member is swallowed once instead of adding `Boolean`
    let inner := config.values.foldl enumValuesStep (st.mainOptionType, false)
    let st := { st with mainOptionType := inner.1 }
    if ! st.needNegativeOption then
      { st with needNegativeOption := inner.2, negatedDescription := config.negatedDescription }
    else st

/-- A built-in option as fed to `makeOption`, restricted to an option carrying
`configs` (the branch the kind-inference claims are about); fields that only
affect help rendering are omitted. -/
structure BuiltInOption where
  name : String
  /-- `alias` (reserved word in Lean). -/
  aliasName : Option String := none
  configs : List FlagConfig
  valueName : Option String := none
  multiple : Bool := false
  deriving Repr, DecidableEq

/-- What `makeOption` contributes to the command's option table for one
option: the rendered flag spelling with its value grammar, the inferred type
set, and the flags of the negated counterpart when one is added. -/
structure CompiledOption where
  flags : String
  types : List OptType
  multiple : Bool
  negativeFlags : Option String
  deriving Repr

/-- The whole config-loop fold of `makeOption`. -/
def inferredState (option : BuiltInOption) : InferState :=
  option.configs.foldl inferConfigsStep ⟨false, none, []⟩

/-- The flag spelling before the value grammar is appended: the legacy
single-letter alias allow-list (`[option.alias] = option.name`) and the
`-a, --name` / `--name` base. -/
def baseFlags (option : BuiltInOption) : String :=
  let aliasName :=
    if option.name ∈ ["devtool", "output-path", "target", "watch", "extends"] then
      option.name.toList.head?.map (fun c => (⟨[c]⟩ : String))
    else option.aliasName
  match aliasName with
  | some a => "-" ++ a ++ ", --" ++ option.name
  | none => "--" ++ option.name

/-- `option.valueName || "value"` with the repetition dots for a repeatable
flag. -/
def valueNameSuffix (option : BuiltInOption) : String :=
  option.valueName.getD "value" ++ (if option.multiple then "..." else "")

/-- `makeOption` (configs branch): the kind-inference loop, the `[value]` /
`<value>` grammar choice, and the `--no-<name>` counterpart. -/
def makeOption (option : BuiltInOption) : CompiledOption :=
  let st := inferredState option
  let flags :=
    if st.mainOptionType.length > 1 ∧ .tBool ∈ st.mainOptionType then
      baseFlags option ++ " [" ++ valueNameSuffix option ++ "]"
    else if st.mainOptionType.length > 0 ∧ .tBool ∉ st.mainOptionType then
      baseFlags option ++ " <" ++ valueNameSuffix option ++ ">"
    else baseFlags option
  { flags := flags
    types := st.mainOptionType
    multiple := option.multiple
    negativeFlags :=
      if st.needNegativeOption then some ("--no-" ++ option.name) else none }

/-! ## The compiled options' argument parsers (webpack-cli.ts lines 761–851) -/

/-- A value as produced by the option argument parsers: numbers (with `nan`
for a failed `Number()` coercion that is kept as-is), strings, booleans,
`undefined`, arrays. -/
inductive PVal where
  | num (n : Int)
  | nan
  | str (s : String)
  | bool (b : Bool)
  | undef
  | arr (xs : List PVal)
  deriving Repr

/-- JS truthiness of `mainOption.defaultValue`. Any array — even an empty
one — is truthy. -/
def truthyP : PVal → Bool
  | .num n => n ≠ 0
  | .nan => false
  | .str s => s ≠ ""
  | .bool b => b
  | .undef => false
  | .arr _ => true

/-- Models the JavaScript `Number(value)` coercion on the fragment exercised
here: optional surrounding whitespace, optional sign, decimal digits. Returns
`none` where `Number(value)` would be `NaN` (the theorems below are
conditioned on this function's outcome, so unmodelled numeric spellings such
as hex or decimals do not affect them). An all-whitespace string coerces
to `0`. -/
def jsNumber (value : String) : Option Int :=
  let s := (value.toList.dropWhile (·.isWhitespace)).reverse.dropWhile (·.isWhitespace)
    |>.reverse
  if s = [] then some 0
  else
    let signDigits : Int × List Char :=
      match s with
      | '-' :: rest => (-1, rest)
      | '+' :: rest => (1, rest)
      | l => (1, l)
    if signDigits.2 ≠ [] ∧ signDigits.2.all (·.isDigit) then
      some (signDigits.1 *
        (signDigits.2.foldl (fun n c => n * 10 + (c.toNat - '0'.toNat)) 0 : Nat))
    else none

/-- `Number(value)` as stored by the parser: a failed coercion is the `NaN`
value itself in the number-only parser. -/
def jsNum (value : String) : PVal :=
  match jsNumber value with
  | some n => .num n
  | none => .nan

/-- The spread `[...prev, x]` of the accumulating parsers: spreading an array
yields its elements and spreading a string yields its characters; other
primitives are not iterable (JS would throw; no run considered below
reaches that case). -/
def jsSpread : PVal → List PVal
  | .arr xs => xs
  | .str s => s.toList.map (fun c => .str (⟨[c]⟩ : String))
  | _ => []

/-- Which `argParser` closure `makeOption` installs for a given inferred type
set: lines 761–818 for a singleton set, lines 819–851 for a multi-kind set;
a pure boolean switch and the hidden zero-kind stub get no parser. -/
inductive ArgParserKind where
  | numberOnly
  | stringOnly
  | multiType
  deriving Repr, DecidableEq

/-- The parser dispatch of `makeOption` on `mainOption.type`. -/
def parserKind (types : List OptType) : Option ArgParserKind :=
  if types.length = 1 then
    if .tNum ∈ types then some .numberOnly
    else if .tStr ∈ types then some .stringOnly
    else none
  else if types.length > 1 then some .multiType
  else none

/-- The shape of `mainOption` consumed by the parsers. -/
structure MainOption where
  types : List OptType
  multiple : Bool
  defaultValue : PVal := .undef
  deriving Repr

/-- One invocation of the installed `argParser` closure. `sd` is the closure's
captured `skipDefault` flag; `prev` is the previously accumulated value that
commander hands back (initially the option's default). The JS parameter
default `prev = []` applies when that value is `undefined`. -/
def argParserStep (kind : ArgParserKind) (mo : MainOption) (sd : Bool) (prev : PVal)
    (value : String) : PVal × Bool :=
  let prev := match prev with | .undef => .arr [] | p => p
  let (prev, sd) :=
    if truthyP mo.defaultValue ∧ mo.multiple ∧ sd then ((.arr [] : PVal), false)
    else (prev, sd)
  match kind with
  | .numberOnly =>
    ((if mo.multiple then .arr (jsSpread prev ++ [jsNum value]) else jsNum value), sd)
  | .stringOnly =>
    ((if mo.multiple then .arr (jsSpread prev ++ [.str value]) else .str value), sd)
  | .multiType =>
    match (if .tNum ∈ mo.types then jsNumber value else none) with
    | some n =>
      ((if mo.multiple then .arr (jsSpread prev ++ [.num n]) else .num n), sd)
    | none =>
      if .tStr ∈ mo.types then
        ((if mo.multiple then .arr (jsSpread prev ++ [.str value]) else .str value), sd)
      else (.str value, sd)

/-- Commander's accumulation over the explicit CLI occurrences of one flag:
the stored value starts at the registered default, and each occurrence runs
the parser on the raw token and the previously stored value. -/
def runArgParser (kind : ArgParserKind) (mo : MainOption) (values : List String) : PVal :=
  (values.foldl
    (fun (acc : PVal × Bool) v => argParserStep kind mo acc.2 acc.1 v)
    (mo.defaultValue, true)).1

/-! ## Generic association lists (JS records / maps) -/

/-- First value bound to `key`, if any. -/
def getAssoc {κ α : Type} [DecidableEq κ] : List (κ × α) → κ → Option α
  | [], _ => none
  | (k, v) :: rest, key => if k = key then some v else getAssoc rest key

/-- JS record/`Map` assignment: overwrite in place when the key exists,
otherwise append. -/
def setAssoc {κ α : Type} [DecidableEq κ] : List (κ × α) → κ → α → List (κ × α)
  | [], key, v => [(key, v)]
  | (k, w) :: rest, key, v =>
    if k = key then (k, v) :: rest else (k, w) :: setAssoc rest key v

/-! ## Command registry: `makeCommand`'s duplicate probe (lines 545–577) -/

/-- `commandOptions.name.split(" ")[0]`: the primary command name, before any
positional placeholder. -/
def primaryName (name : String) : String :=
  ⟨name.toList.takeWhile (fun c => c ≠ ' ')⟩

/-- `commandOptions.alias`: a single string or an array of strings. -/
inductive AliasSpec where
  | one (s : String)
  | many (l : List String)
  deriving Repr, DecidableEq

/-- The part of a command specification the registry probe consults. -/
structure CommandSpec where
  name : String
  aliasSpec : AliasSpec
  deriving Repr, DecidableEq

/-- A registered command as visible to the duplicate probe: commander derives
`name()` from the token before the first space; `aliases()` holds the spec's
alias(es). -/
structure RegisteredCommand where
  name : String
  aliases : List String
  deriving Repr, DecidableEq

/-- The aliases commander stores for a spec (`command.alias` / `command.aliases`). -/
def aliasListOf : AliasSpec → List String
  | .one s => [s]
  | .many l => l

/-- `command.aliases().includes(commandOptions.alias as string)`: when the
spec's alias is an array, `includes` compares that array by object identity
against the stored strings and never matches. -/
def aliasIncluded (aliases : List String) : AliasSpec → Bool
  | .one s => aliases.contains s
  | .many _ => false

/-- The `alreadyLoaded` probe of `makeCommand`: some registered command's
primary name equals the spec's primary name, or its aliases `include` the
spec's alias. -/
def alreadyLoadedProbe (commands : List RegisteredCommand) (commandOptions : CommandSpec) :
    Bool :=
  commands.any (fun command =>
    command.name = primaryName commandOptions.name ∨
    aliasIncluded command.aliases commandOptions.aliasSpec)

/-- The command-table effect of `makeCommand`: the `alreadyLoaded` probe and,
absent a hit, registration of the new command under its primary name and
aliases. (Dependency installation and option compilation do not change the
command table and are modelled separately.) -/
def makeCommand (commands : List RegisteredCommand) (commandOptions : CommandSpec) :
    List RegisteredCommand :=
  if alreadyLoadedProbe commands commandOptions then commands
  else commands ++ [⟨primaryName commandOptions.name, aliasListOf commandOptions.aliasSpec⟩]

/-! ## Deep merge (`webpack-merge`) and the `--merge` reduction (lines 2103–2127) -/

/-- A configuration value: scalars, ordered sequences (e.g. plugin lists) and
plain mappings. -/
inductive CVal where
  | num (n : Int)
  | str (s : String)
  | bool (b : Bool)
  | arr (xs : List CVal)
  | obj (fields : List (String × CVal))
  deriving Repr

mutual

/-- Modelled from the spec: the deep-merge semantics of the external
`webpack-merge` package (spec 4.4b) — plain mapping fields merge key-by-key
recursively, ordered-sequence fields concatenate in input order, and any
other combination is overwritten by the later operand. -/
def deepMerge : CVal → CVal → CVal
  | .obj a, .obj b =>
    .obj (deepMergeFields a b ++ b.filter (fun q => (getAssoc a q.1).isNone))
  | .arr a, .arr b => .arr (a ++ b)
  | _, b => b

/-- Key-by-key merge of the left operand's fields against the right operand. -/
def deepMergeFields :
    List (String × CVal) → List (String × CVal) → List (String × CVal)
  | [], _ => []
  | (k, v) :: rest, b =>
    (match getAssoc b k with
     | some w => (k, deepMerge v w)
     | none => (k, v)) :: deepMergeFields rest b

end

/-- The fatal usage error of the `--merge` path. -/
inductive MergeErr where
  | atLeastTwoConfigurationsRequired
  deriving Repr, DecidableEq

/-- The `options.merge` branch of `loadConfig`: merging demands an ordered
sequence of at least two configurations, then reduces it left-to-right with
`webpack-merge` starting from `{}`, concatenating the operands' path-ledger
entries in input order. Each operand is paired with its ledger entry. -/
def mergeWithFlag (opts : List (CVal × Option (List String))) :
    Except MergeErr (CVal × List String) :=
  if opts.length ≤ 1 then .error .atLeastTwoConfigurationsRequired
  else
    .ok (opts.foldl
      (fun (acc : CVal × List String) o => (deepMerge acc.1 o.1, acc.2 ++ o.2.getD []))
      (.obj [], []))

/-! ## Explicit config loading and the path ledger (lines 1916–1944) -/

/-- The unwrapped export of one configuration file. Object identity — what the
`WeakMap` path ledger keys on — is modelled by a synthetic identifier: a
single object export carries its identifier, an array export carries the
array's own identifier plus one per element. -/
inductive CfgExport where
  | one (id : Nat)
  | many (arrId : Nat) (ids : List Nat)
  deriving Repr, DecidableEq

/-- The result of `loadConfigByPath`: the export and the (resolved) path. -/
structure LoadedCfg where
  options : CfgExport
  path : String
  deriving Repr, DecidableEq

/-- The `config.path` WeakMap: object identifier to contributing paths. -/
abbrev Ledger := List (Nat × List String)

/-- The identity of the value stored in `config.options` by the
single-config branch. -/
def exportKey : CfgExport → Nat
  | .one i => i
  | .many a _ => a

/-- `config.options` after the explicit-path branch: the lone export for a
single `--config`, or the flattened ordered sequence for several. -/
inductive ConfigOptions where
  | single (e : CfgExport)
  | flat (ids : List Nat)
  deriving Repr, DecidableEq

/-- Append flattened elements (only ever reached in the multi-path branch). -/
def appendIds : ConfigOptions → List Nat → ConfigOptions
  | .flat l, ids => .flat (l ++ ids)
  | o, _ => o

/-- Lines 1921–1944 of `loadConfig` (explicit `--config` paths): `optionsId`
is the object identity of `loadConfig`'s own `options` parameter, which line
1937 — `config.path.set(options, [loadedConfig.path])` — uses as the ledger
key while flattening an array-valued export. -/
def loadExplicitConfigs (optionsId : Nat) (loadedConfigs : List LoadedCfg) :
    ConfigOptions × Ledger :=
  match loadedConfigs with
  | [lc] => (.single lc.options, setAssoc [] (exportKey lc.options) [lc.path])
  | lcs =>
    lcs.foldl
      (fun (acc : ConfigOptions × Ledger) lc =>
        match lc.options with
        | .many _ ids =>
          (appendIds acc.1 ids,
            ids.foldl (fun led _ => setAssoc led optionsId [lc.path]) acc.2)
        | .one i => (appendIds acc.1 [i], setAssoc acc.2 i [lc.path]))
      (.flat [], [])

/-! ## The extends resolver (lines 2018–2064) -/

/-- A configuration object as the extends resolver sees it: its `extends`
field (a path list; `[]` models an absent or deleted field — the source
normalises a string to a one-element array at every use site) and its
remaining fields. -/
structure ECfg where
  ext : List String
  data : CVal := .obj []

/-- The file system as the resolver observes it: each (resolved) path yields
the ordered list of exported configuration objects — a plain object export is
a one-element list, matching the `flatMap` over `config.options`. -/
abbrev ConfigFS := List (String × List ECfg)

/-- Look up a path. -/
def lookupFS : ConfigFS → String → Option (List ECfg)
  | [], _ => none
  | (p, cs) :: rest, q => if p = q then some cs else lookupFS rest q

/-- The fatal outcomes of extends resolution: a failed load (`process.exit(2)`
with the offending path), the recursive-configuration diagnostic, and fuel
exhaustion — an artifact of the embedding that stands for non-termination and
that the theorems below rule out. -/
inductive ResolveErr where
  | loadFail (p : String)
  | recursiveConfiguration
  | outOfFuel
  deriving Repr, DecidableEq

/-- `loadConfigByPath` as used by the resolver: the flattened exports of the
file plus the path itself. -/
def loadConfigByPath (fs : ConfigFS) (p : String) : Except ResolveErr (List ECfg × String) :=
  match lookupFS fs p with
  | some cs => .ok (cs, p)
  | none => .error (.loadFail p)

/-- Modelled from the spec: `webpack-merge` on two configuration objects
(spec 4.4b) — the `extends` lists concatenate as ordered-sequence fields and
the remaining mappings deep-merge. -/
def mergeECfg (a b : ECfg) : ECfg :=
  ⟨a.ext ++ b.ext, deepMerge a.data b.data⟩

/-- `merge(...loadedOptions, config)`: left-to-right merge of a non-empty
operand list followed by the configuration's own fields. -/
def mergeMany (cs : List ECfg) (last : ECfg) : ECfg :=
  match cs with
  | [] => last
  | c :: rest => (rest ++ [last]).foldl mergeECfg c

/-- `resolveExtends(config, configPaths, extendsPaths)`. `prevPaths` is the
path-ledger entry of `config` (`configPaths.get(config)`); the ledger write
for the merged object is threaded into the recursive call the same way the
source's `configPaths.set(config, [...prevPaths, ...loadedPaths])` feeds the
recursive `configPaths.get`. Fuel bounds the recursion depth so the
embedding is total; the theorems below show it is never exhausted. -/
def resolveExtends : Nat → ConfigFS → ECfg → Option (List String) → List String →
    Except ResolveErr ECfg
  | 0, _, _, _, _ => .error .outOfFuel
  | fuel + 1, fs, config0, prevPaths, extendsPaths =>
    -- `delete config.extends`
    let config : ECfg := { config0 with ext := [] }
    match extendsPaths.mapM (loadConfigByPath fs) with
    | .error e => .error e
    | .ok loadedConfigs =>
      let loadedOptions := loadedConfigs.flatMap (fun c => c.1)
      let loadedPaths := loadedConfigs.map (fun c => c.2)
      if loadedOptions.length > 0 then
        let bad : Bool :=
          match prevPaths with
          | some prev => decide ((loadedPaths.filter (fun e => prev.contains e)).length > 0)
          | none => false
        if bad then .error .recursiveConfiguration
        else
          let merged := mergeMany loadedOptions config
          let prevPaths2 := prevPaths.map (fun prev => prev ++ loadedPaths)
          if merged.ext ≠ [] then resolveExtends fuel fs merged prevPaths2 merged.ext
          else .ok merged
      else .ok config

/-! ## CLI/config reconciliation in `buildConfig` (lines 2162–2226) -/

/-- A flag of the built-in option schema as `internalBuildConfig` consults it:
its (kebab-case) name and its `group` (`"core"` marks the flags handed to the
argument processor). -/
structure SchemaFlag where
  name : String
  group : Option String := none
  deriving Repr, DecidableEq

/-- The `args` record of lines 2166–2174: the names of the schema flags whose
`group` is `"core"`. -/
def coreArgNames (flags : List SchemaFlag) : List String :=
  (flags.filter (fun f => f.group = some "core")).map (fun f => f.name)

/-- One iteration of the `values` reduce (lines 2175–2190): `argv` is skipped,
and a CLI value is kept — keyed by its kebab-cased name — only when that name
is a known core argument. -/
def buildValuesStep (argNames : List String) (acc : List (String × CVal))
    (nv : String × CVal) : List (String × CVal) :=
  if nv.1 = "argv" then acc
  else
    let kebabName := toKebabCase nv.1
    if argNames.contains kebabName then setAssoc acc kebabName nv.2 else acc

/-- The `values` record of lines 2175–2190: every CLI value except `argv`
whose kebab-cased name is a known core argument, keyed by the kebab-cased
name; all other CLI values are dropped before the argument processor runs. -/
def buildValues (argNames : List String) (options : List (String × CVal)) :
    List (String × CVal) :=
  options.foldl (buildValuesStep argNames) []

/-- A validation discrepancy (the fields claim C6 consumes). -/
structure Problem where
  ptype : String
  path : String
  argument : String
  deriving Repr, DecidableEq

/-- Modelled from the spec: `webpack.cli.processArguments` — the build
engine's argument processor, an external collaborator (spec 4.5). Each
supplied value is applied at its flag's location in the configuration
(modelled as a flat mapping from flag paths to values); a value it cannot
place yields a `Problem` carrying the originating flag name; fields not named
by any supplied value are left untouched. This is the per-value action. -/
def processArgumentsStep (argNames : List String)
    (acc : List (String × CVal) × List Problem) (nv : String × CVal) :
    List (String × CVal) × List Problem :=
  if argNames.contains nv.1 then (setAssoc acc.1 nv.1 nv.2, acc.2)
  else (acc.1, acc.2 ++ [⟨"unknown-argument", nv.1, nv.1⟩])

/-- Modelled from the spec: `webpack.cli.processArguments` over all supplied
values (see `processArgumentsStep`). -/
def processArguments (argNames : List String) (item : List (String × CVal))
    (values : List (String × CVal)) : List (String × CVal) × List Problem :=
  values.foldl (processArgumentsStep argNames) (item, [])

/-- Lines 2166–2193 of `internalBuildConfig`: build the core-argument record,
filter and kebab-case the CLI values, and run the argument processor only
when at least one value survived. -/
def internalBuildConfigApply (flags : List SchemaFlag) (options : List (String × CVal))
    (item : List (String × CVal)) : List (String × CVal) × List Problem :=
  let argNames := coreArgNames flags
  let values := buildValues argNames options
  if values.length > 0 then processArguments argNames item values else (item, [])

/-- Field lookup through a `CVal` (nothing on a non-object). -/
def objLookup : CVal → String → Option CVal
  | .obj fs, k => getAssoc fs k
  | _, _ => none

/-- The flattened configuration objects exported by the files at the given
extends paths (`loadedConfigs.flatMap((config) => config.options)`). -/
def flatLoaded (fs : ConfigFS) (eps : List String) : List ECfg :=
  eps.flatMap (fun p => (lookupFS fs p).getD [])

/-- The extends paths driving the next recursion step: the configuration's
own `extends` was deleted before the merge, so the merged object's `extends`
is the concatenation of the loaded configurations' `extends` lists. -/
def nextExts (fs : ConfigFS) (eps : List String) : List String :=
  (flatLoaded fs eps).flatMap (fun c => c.ext)

/-- An extends chain that, directly (`hit`) or transitively (`step`), names a
path already recorded in the ledger entry `prev` of the configuration under
resolution, with every file along the chain loading successfully and
exporting at least one configuration. The index is the number of resolution
steps before the repeated path is loaded. -/
inductive ChainHits (fs : ConfigFS) : List String → List String → Nat → Prop
  | hit (prev eps : List String)
      (hload : ∀ p ∈ eps, (lookupFS fs p).isSome = true)
      (hopts : 0 < (flatLoaded fs eps).length)
      (hrep : ∃ p ∈ eps, p ∈ prev) : ChainHits fs prev eps 0
  | step (prev eps : List String) (d : Nat)
      (hload : ∀ p ∈ eps, (lookupFS fs p).isSome = true)
      (hopts : 0 < (flatLoaded fs eps).length)
      (hnew : ∀ p ∈ eps, p ∉ prev)
      (hnext : ChainHits fs (prev ++ eps) (nextExts fs eps) d) :
      ChainHits fs prev eps (d + 1)

/-! ## Concrete instances used by the theorems below -/

/-- The shape of the real built-in `progress` flag: a `string` config plus an
`enum` config whose only value is the literal `true`. -/
def progressOption : BuiltInOption :=
  { name := "progress", configs := [⟨.stringK, [], none⟩, ⟨.enum, [.eBool true], none⟩] }

/-- A repeatable flag whose kind set is boolean-plus-number (no string) with a
non-empty default. -/
def boolNumMulti : MainOption :=
  { types := [.tBool, .tNum], multiple := true, defaultValue := .arr [.str "d"] }

/-- A repeatable string flag with a non-empty default. -/
def stringMultiDefault : MainOption :=
  { types := [.tStr], multiple := true, defaultValue := .arr [.str "d"] }

/-- A flag whose inferred kinds include both number and string. -/
def mixedNumStr : MainOption :=
  { types := [.tBool, .tNum, .tStr], multiple := false, defaultValue := .undef }

/-- Two configuration files extending each other: `A` extends `./B` and `B`
extends `./A` (paths already resolved). -/
def fsAB : ConfigFS :=
  [("A", [⟨["B"], .obj []⟩]), ("B", [⟨["A"], .obj []⟩])]

/-- An occurrence that takes an accumulating branch of the parsers: the
number-only and string-only parsers always accumulate; the multi-kind parser
accumulates when the value coerces numerically (with number among the kinds)
or when string is among the kinds. -/
def accumulates (kind : ArgParserKind) (mo : MainOption) (v : String) : Prop :=
  kind = .numberOnly ∨ kind = .stringOnly ∨
    (kind = .multiType ∧
      ((.tNum ∈ mo.types ∧ (jsNumber v).isSome) ∨ .tStr ∈ mo.types))

/-- The element an accumulating occurrence appends: the parser's coercion of
the raw token. -/
def parsedElem (kind : ArgParserKind) (mo : MainOption) (v : String) : PVal :=
  match kind with
  | .numberOnly => jsNum v
  | .stringOnly => .str v
  | .multiType =>
    match (if .tNum ∈ mo.types then jsNumber v else none) with
    | some n => .num n
    | none => .str v

/-! ## Generic association-list lemmas -/

theorem getAssoc_setAssoc_self {κ α : Type} [DecidableEq κ]
    (m : List (κ × α)) (k : κ) (v : α) : getAssoc (setAssoc m k v) k = some v := by
  induction m with
  | nil => simp [setAssoc, getAssoc]
  | cons p rest ih =>
    by_cases h : p.1 = k
    · simp [setAssoc, getAssoc, h]
    · simp [setAssoc, getAssoc, h, ih]

theorem getAssoc_setAssoc_ne {κ α : Type} [DecidableEq κ]
    (m : List (κ × α)) (k k2 : κ) (v : α) (h : k ≠ k2) :
    getAssoc (setAssoc m k v) k2 = getAssoc m k2 := by
  induction m with
  | nil => simp [setAssoc, getAssoc, h]
  | cons p rest ih =>
    by_cases hp : p.1 = k
    · simp [setAssoc, getAssoc, hp, h]
    · by_cases hq : p.1 = k2 <;> simp [setAssoc, getAssoc, hp, hq, ih, Ne.symm h]

theorem getField_setField_self (m : List (String × EVal)) (k : String) (v : EVal) :
    getField (setField m k v) k = some v := by
  induction m with
  | nil => simp [setField, getField]
  | cons p rest ih =>
    by_cases h : p.1 = k
    · simp [setField, getField, h]
    · simp [setField, getField, h, ih]

/-! ## Lemmas about the `--env` string splitting -/

theorem splitEqAux_trailing_eq (l : List Char) (h : '=' ∉ l) (acc : List Char) :
    splitEqAux acc (l ++ ['=']) = (⟨acc.reverse ++ (l ++ ['='])⟩, none) := by
  induction l generalizing acc with
  | nil => simp [splitEqAux]
  | cons c rest ih =>
    have hc : c ≠ '=' := fun hcEq => h (hcEq ▸ List.mem_cons_self c rest)
    have hr : '=' ∉ rest := fun hm => h (List.mem_cons_of_mem c hm)
    show splitEqAux acc ((c :: rest) ++ ['=']) = _
    rw [List.cons_append, splitEqAux]
    simp only [hc, false_and, if_false]
    rw [ih hr]
    simp

theorem splitDotsAux_no_dot (l : List Char) (h : '.' ∉ l) (acc : List Char) :
    splitDotsAux acc l = [⟨acc.reverse ++ l⟩] := by
  induction l generalizing acc with
  | nil => simp [splitDotsAux]
  | cons c rest ih =>
    have hc : c ≠ '.' := fun hcEq => h (hcEq ▸ List.mem_cons_self c rest)
    have hr : '.' ∉ rest := fun hm => h (List.mem_cons_of_mem c hm)
    simp only [splitDotsAux, hc, false_and, if_false]
    rw [ih hr]
    simp

/-! ## Claim theorems -/

/-- C7: applying the `--env` argument parser to the successive values
`foo=bar` and `baz.qux`, starting from an empty accumulator, yields the
nested mapping `{foo: "bar", baz: {qux: true}}`: a `key=value` pair binds the
key to the string value, and a dotted key with no value creates nested
objects with the final segment bound to `true`. -/
theorem env_scenario_nested_mapping :
    envOptionType "baz.qux" (envOptionType "foo=bar" (.obj [])) =
      .obj [("foo", .str "bar"), ("baz", .obj [("qux", .bool true)])] := rfl

/-- C10: an `--env` value whose key ends with `=` and carries no value text
after it has the trailing `=` stripped from the key and binds that key to
`undefined` in the accumulated env object, replacing any previously
accumulated binding for the key (in particular it is bound neither to `true`
nor to `""`, which are different `EVal` constructors from `undef`); the same
holds for a trailing-`=` segment inside a dotted key, as the `a.b=` instance
shows. -/
theorem env_trailing_eq_binds_undefined (s : String) (fields : List (String × EVal))
    (hEq : '=' ∉ s.toList) (hDot : '.' ∉ s.toList) :
    (envOptionType (s ++ "=") (.obj fields) = .obj (setField fields s .undef) ∧
      getField (setField fields s .undef) s = some .undef) ∧
    envOptionType "a.b=" (.obj [("a", .obj [("b", .str "x")])]) =
      .obj [("a", .obj [("b", .undef)])] := by
  refine ⟨⟨?_, getField_setField_self fields s .undef⟩, rfl⟩
  have hList : (s ++ "=").toList = s.toList ++ ['='] := by
    simp [String.toList, String.data_append]
  have hSplit : splitFirstEq (s ++ "=") = (⟨s.toList ++ ['=']⟩, none) := by
    rw [splitFirstEq, hList, splitEqAux_trailing_eq s.toList hEq []]
    simp
  have hNoDot : '.' ∉ s.toList ++ ['='] := by
    intro hm
    rcases List.mem_append.mp hm with hm | hm
    · exact hDot hm
    · simp at hm
  have hDots : splitDots (⟨s.toList ++ ['=']⟩ : String) = [⟨s.toList ++ ['=']⟩] := by
    rw [splitDots]
    show splitDotsAux [] (s.toList ++ ['=']) = _
    rw [splitDotsAux_no_dot _ hNoDot []]
    simp
  have hEnds : endsWithEq (⟨s.toList ++ ['=']⟩ : String) = true := by
    simp [endsWithEq, String.toList]
  rw [envOptionType, hSplit]
  simp only [hDots, envApplyKeys, hEnds, if_true]
  have hDrop : ((⟨s.toList ++ ['=']⟩ : String).toList.dropLast) = s.toList := by
    simp [String.toList]
  rw [hDrop]
  rfl

/-- C10 (witness): `--env foo=` over an accumulator where `foo` was
previously bound to the string `x` rebinds `foo` to `undefined`. -/
theorem env_trailing_eq_binds_undefined_witness :
    (envOptionType ("foo" ++ "=") (.obj [("foo", .str "x")]) =
        .obj (setField [("foo", .str "x")] "foo" .undef) ∧
      getField (setField [("foo", .str "x")] "foo" .undef) "foo" = some .undef) ∧
    envOptionType "a.b=" (.obj [("a", .obj [("b", .str "x")])]) =
      .obj [("a", .obj [("b", .undef)])] :=
  env_trailing_eq_binds_undefined "foo" [("foo", .str "x")] (by decide) (by decide)

/-- C1 (the claim fails on the code): loading two explicit config paths where
the second file exports an array of two configurations. Line 1937 records the
contributing path under `loadConfig`'s own `options` parameter (identity `0`)
instead of under each flattened element (identities `2` and `3`), so both
flattened elements are left without any path-ledger entry, against the
claimed invariant that every flattened element has a non-empty entry. -/
theorem loadExplicitConfigs_flattened_elements_lack_ledger :
    loadExplicitConfigs 0 [⟨.one 1, "a.js"⟩, ⟨.many 9 [2, 3], "b.js"⟩] =
      (.flat [1, 2, 3], [(1, ["a.js"]), (0, ["b.js"])]) ∧
    getAssoc (loadExplicitConfigs 0 [⟨.one 1, "a.js"⟩, ⟨.many 9 [2, 3], "b.js"⟩]).2 2 =
      none ∧
    getAssoc (loadExplicitConfigs 0 [⟨.one 1, "a.js"⟩, ⟨.many 9 [2, 3], "b.js"⟩]).2 3 =
      none := by
  refine ⟨rfl, rfl, rfl⟩

/-- C9 (counterexample): a command specification whose primary name equals an
alias (`bundle`) of an already-registered command is not detected by the
`alreadyLoaded` probe — which only compares primary name against primary
names and the spec's (single-string) alias against aliases — so registration
modifies the command table instead of being a silent no-op. -/
theorem makeCommand_name_matching_alias_registers :
    primaryName "bundle" ∈ (RegisteredCommand.mk "build" ["bundle", "b"]).aliases ∧
    makeCommand [⟨"build", ["bundle", "b"]⟩] ⟨"bundle", .one "x"⟩ ≠
      [⟨"build", ["bundle", "b"]⟩] := by
  constructor
  · decide
  · decide

/-- C9 (amended): registration is a silent no-op precisely when the
`alreadyLoaded` probe hits — the new spec's primary name equals an existing
command's primary name, or the new spec's alias is a single string contained
in an existing command's aliases; a spec whose primary name matches only an
existing alias (or whose array-valued alias overlaps existing aliases) is
registered again. In particular registering the same specification twice
leaves the registry equal to registering it once. -/
theorem makeCommand_idempotent_and_noop (commands : List RegisteredCommand)
    (spec : CommandSpec) :
    makeCommand (makeCommand commands spec) spec = makeCommand commands spec ∧
    ((∃ c ∈ commands, c.name = primaryName spec.name ∨
        aliasIncluded c.aliases spec.aliasSpec) →
      makeCommand commands spec = commands) := by
  constructor
  · by_cases h : alreadyLoadedProbe commands spec = true
    · simp [makeCommand, h]
    · have h3 : alreadyLoadedProbe
          (commands ++ [(⟨primaryName spec.name, aliasListOf spec.aliasSpec⟩ :
            RegisteredCommand)]) spec = true := by
        simp [alreadyLoadedProbe, List.any_append]
      simp [makeCommand, h, h3]
  · intro h
    have hAny : alreadyLoadedProbe commands spec = true := by
      rw [alreadyLoadedProbe, List.any_eq_true]
      rcases h with ⟨c, hc, hcond⟩
      exact ⟨c, hc, by simpa using hcond⟩
    simp [makeCommand, hAny]

/-- C9 (witness): registering the `build` specification on a registry that
already holds it is a no-op, and registration is idempotent there. -/
theorem makeCommand_idempotent_and_noop_witness :
    makeCommand [⟨"build", ["bundle", "b"]⟩] ⟨"build [entries...]", .many ["bundle", "b"]⟩ =
      [⟨"build", ["bundle", "b"]⟩] ∧
    makeCommand (makeCommand [⟨"build", ["bundle", "b"]⟩]
        ⟨"build [entries...]", .many ["bundle", "b"]⟩)
        ⟨"build [entries...]", .many ["bundle", "b"]⟩ =
      makeCommand [⟨"build", ["bundle", "b"]⟩] ⟨"build [entries...]", .many ["bundle", "b"]⟩ := by
  refine ⟨?_, ?_⟩
  · exact (makeCommand_idempotent_and_noop [⟨"build", ["bundle", "b"]⟩]
      ⟨"build [entries...]", .many ["bundle", "b"]⟩).2 (by decide)
  · exact (makeCommand_idempotent_and_noop [⟨"build", ["bundle", "b"]⟩]
      ⟨"build [entries...]", .many ["bundle", "b"]⟩).1

/-! ## C3: value grammar and the negated counterpart -/

/-- The `hasFalseEnum` flag computed by the inner enum loop is exactly
"some member is the literal `false`". -/
theorem enumValues_hasFalse (values : List EnumMember) (t : List OptType) (b : Bool) :
    (values.foldl enumValuesStep (t, b)).2 = (b || values.any (fun v => v = .eBool false)) := by
  induction values generalizing t b with
  | nil => simp
  | cons v vs ih =>
    cases v with
    | eStr s => simp [enumValuesStep, ih]
    | eNum n => simp [enumValuesStep, ih]
    | eBool bb =>
      cases b with
      | false =>
        cases bb with
        | false => simp [enumValuesStep, ih]
        | true => simp [enumValuesStep, ih]
      | true => simp [enumValuesStep, ih]

/-- After one config, `needNegativeOption` holds iff it already held, the
config has type `boolean`, or it is an enum config with a literal `false`
member. -/
theorem inferConfigsStep_need (st : InferState) (c : FlagConfig) :
    ((inferConfigsStep st c).needNegativeOption = true) ↔
      (st.needNegativeOption = true ∨ c.kind = .boolean ∨
        (c.kind = .enum ∧ .eBool false ∈ c.values)) := by
  cases hk : c.kind with
  | reset => simp [inferConfigsStep, hk]
  | boolean =>
    by_cases hn : st.needNegativeOption = true <;> simp [inferConfigsStep, hk, hn]
  | number => simp [inferConfigsStep, hk]
  | stringK => simp [inferConfigsStep, hk]
  | pathK => simp [inferConfigsStep, hk]
  | regExp => simp [inferConfigsStep, hk]
  | enum =>
    by_cases hn : st.needNegativeOption = true
    · simp [inferConfigsStep, hk, hn]
    · simp only [inferConfigsStep, hk, hn]
      rw [enumValues_hasFalse]
      simp [hn, List.any_eq_true]

/-- The whole config loop: `needNegativeOption` holds iff it held initially
or some config has type `boolean` or is an enum config with a literal `false`
member. -/
theorem inferredNeed_iff (configs : List FlagConfig) (st : InferState) :
    ((configs.foldl inferConfigsStep st).needNegativeOption = true) ↔
      (st.needNegativeOption = true ∨
        ∃ c ∈ configs, c.kind = .boolean ∨ (c.kind = .enum ∧ .eBool false ∈ c.values)) := by
  induction configs generalizing st with
  | nil => simp
  | cons c cs ih =>
    rw [List.foldl_cons, ih, inferConfigsStep_need]
    simp only [List.exists_mem_cons_iff]
    aesop

/-- C3 (counterexample): the built-in `progress` flag — a `string` config plus
an `enum` config whose only value is the literal `true` — has an inferred kind
set containing boolean plus another kind, yet `makeOption` adds no
`--no-progress` counterpart, because `needNegativeOption` is only set by a
`boolean`-typed config or a `false` enum member. -/
theorem makeOption_mixed_boolean_without_negation :
    .tBool ∈ (makeOption progressOption).types ∧
    1 < (makeOption progressOption).types.length ∧
    (makeOption progressOption).negativeFlags = none := by
  refine ⟨by decide, by decide, by decide⟩

/-- C3 (amended): for a kind set containing boolean plus at least one other
kind the compiled option has optional-value grammar `[value]`; for a
non-empty kind set excluding boolean it has required-value grammar `<value>`;
for the purely boolean kind set the flag is a pure switch; and the negated
`--no-<name>` counterpart is added exactly when some config has type
`boolean` or is an enum config containing the literal `false` member (so a
boolean kind contributed only by `reset` or by a `true` enum member yields no
negated counterpart). -/
theorem makeOption_grammar_and_negation (option : BuiltInOption) :
    ((.tBool ∈ (makeOption option).types ∧ 1 < (makeOption option).types.length) →
      (makeOption option).flags =
        baseFlags option ++ " [" ++ valueNameSuffix option ++ "]") ∧
    ((.tBool ∉ (makeOption option).types ∧ (makeOption option).types ≠ []) →
      (makeOption option).flags =
        baseFlags option ++ " <" ++ valueNameSuffix option ++ ">") ∧
    ((makeOption option).types = [.tBool] →
      (makeOption option).flags = baseFlags option) ∧
    ((makeOption option).negativeFlags = some ("--no-" ++ option.name) ↔
      ∃ c ∈ option.configs,
        c.kind = .boolean ∨ (c.kind = .enum ∧ .eBool false ∈ c.values)) := by
  have hTypes : (makeOption option).types = (inferredState option).mainOptionType := rfl
  refine ⟨?_, ?_, ?_, ?_⟩
  · intro h
    rw [hTypes] at h
    simp only [makeOption]
    rw [if_pos ⟨h.2, h.1⟩]
  · intro h
    rw [hTypes] at h
    have hlen : 0 < (inferredState option).mainOptionType.length :=
      List.length_pos.mpr h.2
    simp only [makeOption]
    rw [if_neg (fun hc => h.1 hc.2), if_pos ⟨hlen, h.1⟩]
  · intro h
    rw [hTypes] at h
    simp only [makeOption, h]
    rw [if_neg (by simp), if_neg (by simp)]
  · have hNeed : ((inferredState option).needNegativeOption = true) ↔
        ∃ c ∈ option.configs,
          c.kind = .boolean ∨ (c.kind = .enum ∧ .eBool false ∈ c.values) := by
      rw [inferredState, inferredNeed_iff]
      simp
    rw [← hNeed]
    by_cases hn : (inferredState option).needNegativeOption = true <;>
      simp [makeOption, hn]

/-- C3 (witness): the amended theorem evaluated at the `progress` flag
(optional grammar without a negated counterpart) and at a boolean `watch`-like
flag (negated counterpart present). -/
theorem makeOption_grammar_and_negation_witness :
    ((.tBool ∈ (makeOption progressOption).types ∧
        1 < (makeOption progressOption).types.length) ∧
      (makeOption progressOption).flags =
        baseFlags progressOption ++ " [" ++ valueNameSuffix progressOption ++ "]") ∧
    (makeOption (BuiltInOption.mk "watch" none [⟨.boolean, [], none⟩] none false)).negativeFlags =
      some ("--no-" ++ "watch") := by
  refine ⟨⟨by decide, (makeOption_grammar_and_negation progressOption).1 (by decide)⟩, ?_⟩
  exact (makeOption_grammar_and_negation _).2.2.2.mpr
    ⟨⟨.boolean, [], none⟩, by decide, Or.inl rfl⟩

/-! ## C4, C8: the argument parsers -/

/-- The first explicit occurrence of a repeatable flag with a truthy default:
the previously stored default is discarded (`prev = []`) before the new value
is accumulated, and `skipDefault` flips off. -/
theorem argParserStep_first (kind : ArgParserKind) (mo : MainOption) (prev : PVal)
    (v : String) (hm : mo.multiple = true) (hd : truthyP mo.defaultValue = true)
    (hacc : accumulates kind mo v) :
    argParserStep kind mo true prev v = (.arr [parsedElem kind mo v], false) := by
  cases kind with
  | numberOnly => simp [argParserStep, hm, hd, parsedElem, jsSpread]
  | stringOnly => simp [argParserStep, hm, hd, parsedElem, jsSpread]
  | multiType =>
    cases hn : (if OptType.tNum ∈ mo.types then jsNumber v else none) with
    | some n => simp [argParserStep, hm, hd, parsedElem, jsSpread, hn]
    | none =>
      have hS : OptType.tStr ∈ mo.types := by
        rcases hacc with h | h | ⟨-, h | hS⟩
        · exact absurd h (by simp)
        · exact absurd h (by simp)
        · rcases h with ⟨hN, hSome⟩
          rw [if_pos hN] at hn
          rw [hn] at hSome
          simp at hSome
        · exact hS
      simp [argParserStep, hm, hd, parsedElem, jsSpread, hn, hS]

/-- A later occurrence (with `skipDefault` already off) appends the parsed
value to the accumulated array. -/
theorem argParserStep_rest (kind : ArgParserKind) (mo : MainOption) (acc : List PVal)
    (v : String) (hm : mo.multiple = true) (hacc : accumulates kind mo v) :
    argParserStep kind mo false (.arr acc) v =
      (.arr (acc ++ [parsedElem kind mo v]), false) := by
  cases kind with
  | numberOnly => simp [argParserStep, hm, parsedElem, jsSpread]
  | stringOnly => simp [argParserStep, hm, parsedElem, jsSpread]
  | multiType =>
    cases hn : (if OptType.tNum ∈ mo.types then jsNumber v else none) with
    | some n => simp [argParserStep, hm, parsedElem, jsSpread, hn]
    | none =>
      have hS : OptType.tStr ∈ mo.types := by
        rcases hacc with h | h | ⟨-, h | hS⟩
        · exact absurd h (by simp)
        · exact absurd h (by simp)
        · rcases h with ⟨hN, hSome⟩
          rw [if_pos hN] at hn
          rw [hn] at hSome
          simp at hSome
        · exact hS
      simp [argParserStep, hm, parsedElem, jsSpread, hn, hS]

/-- Accumulation over the remaining occurrences once the default has been
discarded. -/
theorem runArgParser_fold (kind : ArgParserKind) (mo : MainOption)
    (hm : mo.multiple = true) (rest : List String) (acc : List PVal)
    (hacc : ∀ v ∈ rest, accumulates kind mo v) :
    (rest.foldl (fun (st : PVal × Bool) v => argParserStep kind mo st.2 st.1 v)
      ((.arr acc : PVal), false)).1 = .arr (acc ++ rest.map (parsedElem kind mo)) := by
  induction rest generalizing acc with
  | nil => simp
  | cons v rs ih =>
    rw [List.foldl_cons]
    rw [show argParserStep kind mo false (.arr acc) v =
      ((.arr (acc ++ [parsedElem kind mo v]) : PVal), false) from
      argParserStep_rest kind mo acc v hm (hacc v (List.mem_cons_self v rs))]
    rw [ih (acc ++ [parsedElem kind mo v]) (fun w hw => hacc w (List.mem_cons_of_mem v hw))]
    simp

/-- C4 (counterexample): a repeatable flag whose kind set is boolean plus
number (no string), with a non-empty default, given two non-numeric values:
the parser's final `return value;` fallback discards the accumulated array,
so the result is the raw scalar of the last occurrence rather than the
ordered sequence of user-supplied values. -/
theorem runArgParser_scalar_fallback :
    runArgParser .multiType boolNumMulti ["abc", "x"] = .str "x" ∧
    runArgParser .multiType boolNumMulti ["abc", "x"] ≠ .arr [.str "abc", .str "x"] := by
  refine ⟨rfl, ?_⟩
  intro h
  rw [show runArgParser .multiType boolNumMulti ["abc", "x"] = .str "x" from rfl] at h
  exact PVal.noConfusion h

/-- C4 (amended): for a repeatable flag with a non-empty (truthy) default, the
first explicit CLI occurrence discards the built-in default, and as long as
every occurrence takes an accumulating branch (kind set exactly number,
exactly string, or multi-kind with string among the kinds or the value
numeric when number is among them) the accumulated sequence is exactly the
user-supplied values in order with the default never prepended; a
boolean-plus-number flag given a non-numeric value instead degenerates to the
raw scalar. -/
theorem runArgParser_discards_default (kind : ArgParserKind) (mo : MainOption)
    (vs : List String) (hm : mo.multiple = true) (hd : truthyP mo.defaultValue = true)
    (hvs : vs ≠ []) (hacc : ∀ v ∈ vs, accumulates kind mo v) :
    runArgParser kind mo vs = .arr (vs.map (parsedElem kind mo)) := by
  match vs, hvs with
  | v :: rest, _ =>
    rw [runArgParser, List.foldl_cons]
    rw [show argParserStep kind mo true mo.defaultValue v =
      ((.arr [parsedElem kind mo v] : PVal), false) from
      argParserStep_first kind mo mo.defaultValue v hm hd (hacc v (List.mem_cons_self v rest))]
    rw [runArgParser_fold kind mo hm rest [parsedElem kind mo v]
      (fun w hw => hacc w (List.mem_cons_of_mem v hw))]
    simp

/-- C4 (witness): a repeatable string flag with default `["d"]` given the
values `a b` accumulates exactly `["a", "b"]`. -/
theorem runArgParser_discards_default_witness :
    stringMultiDefault.multiple = true ∧
    truthyP stringMultiDefault.defaultValue = true ∧
    runArgParser .stringOnly stringMultiDefault ["a", "b"] =
      .arr (["a", "b"].map (parsedElem .stringOnly stringMultiDefault)) := by
  refine ⟨rfl, rfl, runArgParser_discards_default .stringOnly stringMultiDefault ["a", "b"]
    rfl rfl (by simp) ?_⟩
  intro v _
  exact Or.inr (Or.inl rfl)

/-- C8: for a flag whose inferred kinds include both number and string, the
parser first attempts numeric coercion of the raw value — a numeric value
parses to that number — and on failed coercion falls back to keeping the raw
string; the parser is a total function with no error or warning channel. -/
theorem argParser_number_first_string_fallback (mo : MainOption) (sd : Bool)
    (prev : PVal) (v : String) (hN : OptType.tNum ∈ mo.types)
    (hS : OptType.tStr ∈ mo.types) (hm : mo.multiple = false) :
    (∀ n, jsNumber v = some n → (argParserStep .multiType mo sd prev v).1 = .num n) ∧
    (jsNumber v = none → (argParserStep .multiType mo sd prev v).1 = .str v) := by
  constructor
  · intro n hn
    simp [argParserStep, hm, hN, hn]
  · intro hn
    simp [argParserStep, hm, hN, hS, hn]

/-- C8 (witness): `123` coerces to the number `123`; `abc` falls back to the
raw string. -/
theorem argParser_number_first_string_fallback_witness :
    (argParserStep .multiType mixedNumStr true (.undef) "123").1 = .num 123 ∧
    (argParserStep .multiType mixedNumStr true (.undef) "abc").1 = .str "abc" := by
  refine ⟨(argParser_number_first_string_fallback mixedNumStr true (.undef) "123"
      (by decide) (by decide) rfl).1 123 (by decide),
    (argParser_number_first_string_fallback mixedNumStr true (.undef) "abc"
      (by decide) (by decide) rfl).2 (by decide)⟩

/-! ## C5: the `--merge` reduction -/

/-- Merging the empty object into a mapping yields that mapping (the reduce's
initial `{}` is neutral on the left). -/
theorem deepMerge_empty_obj (b : List (String × CVal)) :
    deepMerge (.obj []) (.obj b) = .obj b := by
  rw [deepMerge, deepMergeFields]
  simp only [List.nil_append]
  rw [List.filter_eq_self.mpr]
  intro a _
  simp [getAssoc]

/-- Looking up a key that is bound in the first list ignores an appended
second list. -/
theorem getAssoc_append_left {α : Type} (l1 l2 : List (String × α)) (k : String)
    (v : α) (h : getAssoc l1 k = some v) : getAssoc (l1 ++ l2) k = some v := by
  induction l1 with
  | nil => simp [getAssoc] at h
  | cons p rest ih =>
    by_cases hp : p.1 = k
    · rw [getAssoc, if_pos hp] at h
      simpa [getAssoc, hp] using h
    · rw [getAssoc, if_neg hp] at h
      simpa [getAssoc, hp] using ih h

/-- The key-by-key pass: a key bound in both operands maps to the deep merge
of the two values. -/
theorem deepMergeFields_lookup_both (a b : List (String × CVal)) (k : String)
    (va vb : CVal) (hva : getAssoc a k = some va) (hvb : getAssoc b k = some vb) :
    getAssoc (deepMergeFields a b) k = some (deepMerge va vb) := by
  induction a with
  | nil => simp [getAssoc] at hva
  | cons p rest ih =>
    obtain ⟨pk, pv⟩ := p
    by_cases hp : pk = k
    · subst hp
      rw [getAssoc, if_pos rfl] at hva
      injection hva with hva
      subst hva
      rw [deepMergeFields, hvb]
      simp [getAssoc]
    · rw [getAssoc, if_neg hp] at hva
      rw [deepMergeFields]
      cases hb : getAssoc b pk with
      | some w => simpa [getAssoc, hb, hp] using ih hva
      | none => simpa [getAssoc, hb, hp] using ih hva

/-- Key-by-key recursion: a key bound in both mappings is bound in the merged
mapping to the deep merge of the two values. -/
theorem deepMerge_obj_lookup_both (a : List (String × CVal)) (b : List (String × CVal))
    (k : String) (va vb : CVal) (hva : getAssoc a k = some va)
    (hvb : getAssoc b k = some vb) :
    objLookup (deepMerge (.obj a) (.obj b)) k = some (deepMerge va vb) := by
  rw [deepMerge, objLookup]
  exact getAssoc_append_left _ _ k _ (deepMergeFields_lookup_both a b k va vb hva hvb)

/-- C5 (amended to nothing — as claimed): the `--merge` result is the
left-to-right pairwise fold of the deep merge (the reduce's `{}` seed is
absorbed by the first object operand) with the ledger entries concatenated in
input order; mapping fields merge key-by-key recursively; conflicting scalar
fields take the rightmost operand's value; and plugin lists concatenate in
input order, `[{plugins:[P1]}, {plugins:[P2]}]` yielding `plugins:[P1,P2]`. -/
theorem mergeWithFlag_fold_semantics
    (aF : List (String × CVal)) (B C : CVal) (la lb lc : Option (List String))
    (a2 b2 : List (String × CVal)) (k : String) (va vb : CVal)
    (hva : getAssoc a2 k = some va) (hvb : getAssoc b2 k = some vb)
    (sa sb : Int) :
    mergeWithFlag [(.obj aF, la), (B, lb), (C, lc)] =
      .ok (deepMerge (deepMerge (.obj aF) B) C,
        (la.getD [] ++ lb.getD []) ++ lc.getD []) ∧
    objLookup (deepMerge (.obj a2) (.obj b2)) k = some (deepMerge va vb) ∧
    deepMerge (.num sa) (.num sb) = .num sb ∧
    deepMerge (.obj [("plugins", .arr [.str "P1"])])
        (.obj [("plugins", .arr [.str "P2"])]) =
      .obj [("plugins", .arr [.str "P1", .str "P2"])] := by
  refine ⟨?_, deepMerge_obj_lookup_both a2 b2 k va vb hva hvb, rfl, rfl⟩
  rw [mergeWithFlag, if_neg (by simp)]
  simp only [List.foldl_cons, List.foldl_nil, deepMerge_empty_obj]
  simp

/-- C5 (witness): two single-field mappings with a shared `mode` key and a
third empty operand, plus concrete ledger entries. -/
theorem mergeWithFlag_fold_semantics_witness :
    mergeWithFlag [(.obj [("mode", .str "a")], some ["f1"]),
        (.obj [("mode", .str "b")], some ["f2"]), (.obj [], none)] =
      .ok (deepMerge (deepMerge (.obj [("mode", .str "a")]) (.obj [("mode", .str "b")]))
          (.obj []),
        (["f1"] ++ ["f2"]) ++ []) ∧
    objLookup (deepMerge (.obj [("x", .num 1)]) (.obj [("x", .num 2)])) "x" =
      some (deepMerge (.num 1) (.num 2)) ∧
    deepMerge (.num 1) (.num 2) = .num 2 ∧
    deepMerge (.obj [("plugins", .arr [.str "P1"])])
        (.obj [("plugins", .arr [.str "P2"])]) =
      .obj [("plugins", .arr [.str "P1", .str "P2"])] :=
  mergeWithFlag_fold_semantics [("mode", .str "a")] (.obj [("mode", .str "b")]) (.obj [])
    (some ["f1"]) (some ["f2"]) none [("x", .num 1)] [("x", .num 2)] "x"
    (.num 1) (.num 2) rfl rfl 1 2

/-! ## C6: unknown CLI names never reach the argument processor -/

theorem mem_setAssoc {κ α : Type} [DecidableEq κ] (m : List (κ × α)) (key : κ) (v : α)
    (p : κ × α) (hp : p ∈ setAssoc m key v) : p.1 = key ∨ p ∈ m := by
  induction m with
  | nil =>
    simp only [setAssoc, List.mem_singleton] at hp
    subst hp
    exact Or.inl rfl
  | cons q rest ih =>
    rw [setAssoc] at hp
    by_cases hq : q.1 = key
    · rw [if_pos hq] at hp
      rcases List.mem_cons.mp hp with rfl | hp
      · exact Or.inl hq
      · exact Or.inr (List.mem_cons_of_mem q hp)
    · rw [if_neg hq] at hp
      rcases List.mem_cons.mp hp with rfl | hp
      · exact Or.inr (List.mem_cons_self q rest)
      · rcases ih hp with h | h
        · exact Or.inl h
        · exact Or.inr (List.mem_cons_of_mem q h)

/-- Every key the `values` reduce produces is a known core argument name. -/
theorem buildValues_keys (argNames : List String) (options : List (String × CVal)) :
    ∀ p ∈ buildValues argNames options, p.1 ∈ argNames := by
  have h : ∀ (opts : List (String × CVal)) (acc : List (String × CVal)),
      (∀ p ∈ acc, p.1 ∈ argNames) →
      ∀ p ∈ opts.foldl (buildValuesStep argNames) acc, p.1 ∈ argNames := by
    intro opts
    induction opts with
    | nil => intro acc hacc; simpa using hacc
    | cons nv rest ih =>
      intro acc hacc
      rw [List.foldl_cons]
      apply ih
      intro p hp
      simp only [buildValuesStep] at hp
      by_cases h1 : nv.1 = "argv"
      · rw [if_pos h1] at hp
        exact hacc p hp
      · rw [if_neg h1] at hp
        by_cases h2 : argNames.contains (toKebabCase nv.1) = true
        · rw [if_pos h2] at hp
          rcases mem_setAssoc acc (toKebabCase nv.1) nv.2 p hp with h | h
          · rw [h]
            simpa using h2
          · exact hacc p h
        · rw [if_neg h2] at hp
          exact hacc p hp
  exact h options [] (by simp)

/-- The argument processor's frame: a name carried by no supplied value is
neither reported in any `Problem` nor has its configuration field changed. -/
theorem processArguments_fold_frame (argNames : List String) (k : String) :
    ∀ (values : List (String × CVal)), (∀ p ∈ values, p.1 ≠ k) →
    ∀ (item : List (String × CVal)) (probs : List Problem),
      getAssoc (values.foldl (processArgumentsStep argNames) (item, probs)).1 k =
        getAssoc item k ∧
      (∀ pr ∈ (values.foldl (processArgumentsStep argNames) (item, probs)).2,
        pr ∈ probs ∨ pr.argument ≠ k) := by
  intro values
  induction values with
  | nil => intro _ item probs; exact ⟨rfl, fun pr hpr => Or.inl hpr⟩
  | cons nv rest ih =>
    intro hv item probs
    have hnv : nv.1 ≠ k := hv nv (List.mem_cons_self nv rest)
    have hrest : ∀ p ∈ rest, p.1 ≠ k := fun p hp => hv p (List.mem_cons_of_mem nv hp)
    rw [List.foldl_cons]
    by_cases hc : argNames.contains nv.1 = true
    · have hcm : nv.1 ∈ argNames := by simpa using hc
      rw [show processArgumentsStep argNames (item, probs) nv =
        (setAssoc item nv.1 nv.2, probs) by simp [processArgumentsStep, hcm]]
      obtain ⟨hfield, hprobs⟩ := ih hrest (setAssoc item nv.1 nv.2) probs
      refine ⟨?_, hprobs⟩
      rw [hfield, getAssoc_setAssoc_ne item nv.1 k nv.2 hnv]
    · have hcm : nv.1 ∉ argNames := by simpa using hc
      rw [show processArgumentsStep argNames (item, probs) nv =
        (item, probs ++ [⟨"unknown-argument", nv.1, nv.1⟩]) by
          simp [processArgumentsStep, hcm]]
      obtain ⟨hfield, hprobs⟩ := ih hrest item (probs ++ [⟨"unknown-argument", nv.1, nv.1⟩])
      refine ⟨hfield, fun pr hpr => ?_⟩
      rcases hprobs pr hpr with h | h
      · rcases List.mem_append.mp h with h | h
        · exact Or.inl h
        · rcases List.mem_singleton.mp h with rfl
          exact Or.inr hnv
      · exact Or.inr h

/-- C6: a CLI value whose kebab-cased name matches no flag of the built-in
flag schema is filtered out before the argument processor runs, so
reconciliation produces zero `Problem`s for that name and the configuration
field reachable from that name is unchanged. -/
theorem unknown_flag_zero_problems_frame (flags : List SchemaFlag)
    (options : List (String × CVal)) (item : List (String × CVal)) (name : String)
    (h : toKebabCase name ∉ flags.map (fun f => f.name)) :
    (∀ pr ∈ (internalBuildConfigApply flags options item).2,
      pr.argument ≠ toKebabCase name) ∧
    getAssoc (internalBuildConfigApply flags options item).1 (toKebabCase name) =
      getAssoc item (toKebabCase name) := by
  have hk : toKebabCase name ∉ coreArgNames flags := by
    intro hmem
    apply h
    rcases List.mem_map.mp hmem with ⟨f, hf, hfe⟩
    exact List.mem_map.mpr ⟨f, (List.mem_filter.mp hf).1, hfe⟩
  have hkeys : ∀ p ∈ buildValues (coreArgNames flags) options, p.1 ≠ toKebabCase name :=
    fun p hp he => hk (he ▸ buildValues_keys _ options p hp)
  simp only [internalBuildConfigApply]
  by_cases hlen : 0 < (buildValues (coreArgNames flags) options).length
  · rw [if_pos hlen]
    simp only [processArguments]
    obtain ⟨hfield, hprobs⟩ := processArguments_fold_frame (coreArgNames flags)
      (toKebabCase name) (buildValues (coreArgNames flags) options) hkeys item []
    refine ⟨fun pr hpr => ?_, hfield⟩
    rcases hprobs pr hpr with h0 | h0
    · simp at h0
    · exact h0
  · rw [if_neg hlen]
    exact ⟨by simp, rfl⟩

/-- C6 (witness): the CLI value `fooBar` (kebab `foo-bar`) against a schema
whose only flag is the core `mode` flag: no problem mentions `foo-bar` and
the configuration is untouched at `foo-bar`. -/
theorem unknown_flag_zero_problems_frame_witness :
    (∀ pr ∈ (internalBuildConfigApply [⟨"mode", some "core"⟩]
        [("fooBar", .str "1")] [("mode", .str "p")]).2,
      pr.argument ≠ toKebabCase "fooBar") ∧
    getAssoc (internalBuildConfigApply [⟨"mode", some "core"⟩]
        [("fooBar", .str "1")] [("mode", .str "p")]).1 (toKebabCase "fooBar") =
      getAssoc [("mode", .str "p")] (toKebabCase "fooBar") :=
  unknown_flag_zero_problems_frame [⟨"mode", some "core"⟩] [("fooBar", .str "1")]
    [("mode", .str "p")] "fooBar" (by decide)

/-! ## C2: extends resolution fails fatally on cycles, without looping -/

/-- When every extends path loads, `mapM` yields the per-path exports paired
with the (already resolved) paths. -/
theorem mapM_loadConfigByPath (fs : ConfigFS) (eps : List String)
    (h : ∀ p ∈ eps, (lookupFS fs p).isSome = true) :
    eps.mapM (loadConfigByPath fs) =
      .ok (eps.map (fun p => ((lookupFS fs p).getD [], p))) := by
  induction eps with
  | nil => rfl
  | cons p rest ih =>
    obtain ⟨cs, hcs⟩ := Option.isSome_iff_exists.mp (h p (List.mem_cons_self p rest))
    have hload : loadConfigByPath fs p = .ok (cs, p) := by
      rw [loadConfigByPath, hcs]
    rw [List.mapM_cons, hload, ih (fun q hq => h q (List.mem_cons_of_mem p hq))]
    simp only [List.map_cons, hcs, Option.getD_some]
    rfl

/-- The `extends` field of a left-to-right merge concatenates. -/
theorem foldl_mergeECfg_ext (l : List ECfg) (c : ECfg) :
    (l.foldl mergeECfg c).ext = c.ext ++ l.flatMap (fun x => x.ext) := by
  induction l generalizing c with
  | nil => simp
  | cons d ds ih =>
    rw [List.foldl_cons, ih]
    simp [mergeECfg]

/-- `merge(...loadedOptions, config)` with the configuration's own `extends`
already deleted: the merged `extends` is the concatenation of the loaded
configurations' `extends` lists. -/
theorem mergeMany_ext (cs : List ECfg) (c0 : ECfg) (h : cs ≠ []) :
    (mergeMany cs { c0 with ext := [] }).ext = cs.flatMap (fun x => x.ext) := by
  match cs, h with
  | c :: rest, _ =>
    rw [mergeMany, foldl_mergeECfg_ext]
    simp

/-- A chain that hits the ledger involves at least one extends path. -/
theorem chainHits_ne_nil {fs : ConfigFS} {prev eps : List String} {d : Nat}
    (h : ChainHits fs prev eps d) : eps ≠ [] := by
  cases h with
  | hit _ _ _ hopts _ =>
    intro he
    rw [he] at hopts
    simp [flatLoaded] at hopts
  | step _ _ _ _ hopts _ _ =>
    intro he
    rw [he] at hopts
    simp [flatLoaded] at hopts

/-- The flattened first components of the loaded pairs are `flatLoaded`. -/
theorem flatMap_fst_loaded (fs : ConfigFS) (eps : List String) :
    (eps.map (fun p => ((lookupFS fs p).getD [], p))).flatMap (fun c => c.1) =
      flatLoaded fs eps := by
  rw [flatLoaded]
  induction eps with
  | nil => rfl
  | cons p rest ih => simp_all

/-- The second components of the loaded pairs are the extends paths. -/
theorem map_snd_loaded (fs : ConfigFS) (eps : List String) :
    (eps.map (fun p => ((lookupFS fs p).getD [], p))).map (fun c => c.2) = eps := by
  induction eps with
  | nil => rfl
  | cons p rest ih => simp_all

/-- One successful resolution step, unfolded: the cycle check, then either
the fatal diagnostic, recursion on the merged configuration's `extends`, or
successful termination. -/
theorem resolveExtends_succ (fuel : Nat) (fs : ConfigFS) (config : ECfg)
    (prev : List String) (eps : List String)
    (hload : ∀ p ∈ eps, (lookupFS fs p).isSome = true)
    (hopts : 0 < (flatLoaded fs eps).length) :
    resolveExtends (fuel + 1) fs config (some prev) eps =
      if 0 < (eps.filter (fun e => prev.contains e)).length then
        .error .recursiveConfiguration
      else if (mergeMany (flatLoaded fs eps) { config with ext := [] }).ext ≠ [] then
        resolveExtends fuel fs (mergeMany (flatLoaded fs eps) { config with ext := [] })
          (some (prev ++ eps))
          (mergeMany (flatLoaded fs eps) { config with ext := [] }).ext
      else .ok (mergeMany (flatLoaded fs eps) { config with ext := [] }) := by
  rw [resolveExtends, mapM_loadConfigByPath fs eps hload]
  simp only [flatMap_fst_loaded, map_snd_loaded, hopts, if_true, gt_iff_lt,
    decide_eq_true_eq, Option.map_some]
  rfl

/-- C2: for every configuration with a recorded (non-absent) path-ledger
entry whose extends chain, directly or transitively, names a path already in
that entry — every file along the chain loading successfully — extends
resolution fails fatally with the recursive-configuration diagnostic, and it
does so after exactly the chain's depth of recursion steps, for every fuel
bound beyond that depth: the recursion is bounded and never loops. -/
theorem resolveExtends_cycle_fatal (fs : ConfigFS) (prev eps : List String) (d : Nat)
    (h : ChainHits fs prev eps d) :
    ∀ fuel, d < fuel → ∀ config : ECfg,
      resolveExtends fuel fs config (some prev) eps = .error .recursiveConfiguration := by
  induction h with
  | hit prev eps hload hopts hrep =>
    intro fuel hfuel config
    match fuel, hfuel with
    | f + 1, _ =>
      rw [resolveExtends_succ f fs config prev eps hload hopts]
      obtain ⟨p, hp, hpp⟩ := hrep
      have hmem : p ∈ eps.filter (fun e => prev.contains e) :=
        List.mem_filter.mpr ⟨hp, by simpa using hpp⟩
      rw [if_pos (List.length_pos.mpr (List.ne_nil_of_mem hmem))]
  | step prev eps d hload hopts hnew hnext ih =>
    intro fuel hfuel config
    match fuel, hfuel with
    | f + 1, hfuel =>
      rw [resolveExtends_succ f fs config prev eps hload hopts]
      have hfilter : eps.filter (fun e => prev.contains e) = [] := by
        rw [List.filter_eq_nil_iff]
        intro p hp
        simpa using hnew p hp
      rw [if_neg (by rw [hfilter]; simp)]
      have hext : (mergeMany (flatLoaded fs eps) { config with ext := [] }).ext =
          nextExts fs eps := by
        rw [nextExts, mergeMany_ext _ _ (by
          intro he
          rw [he] at hopts
          simp at hopts)]
      have hne : nextExts fs eps ≠ [] := chainHits_ne_nil hnext
      rw [if_pos (by rw [hext]; exact hne), hext]
      exact ih f (Nat.lt_of_succ_lt_succ hfuel) _

/-- C2 (witness): configuration `A` (ledger entry `["A"]`) extends `B`, and
`B` extends `A`; resolution reports the recursive-configuration diagnostic at
depth 1, with any fuel bound of at least 2. -/
theorem resolveExtends_cycle_fatal_witness :
    1 < 2 ∧
    resolveExtends 2 fsAB ⟨["B"], .obj []⟩ (some ["A"]) ["B"] =
      .error .recursiveConfiguration := by
  have hchain : ChainHits fsAB ["A"] ["B"] 1 := by
    apply ChainHits.step ["A"] ["B"] 0 (by decide) (by decide) (by decide)
    exact ChainHits.hit _ _ (by decide) (by decide) (by decide)
  exact ⟨by decide, resolveExtends_cycle_fatal fsAB ["A"] ["B"] 1 hchain 2 (by decide) _⟩

end Webpack
